import Mathlib

/-
Verification of the wallet-activity analytics pipeline of streamlit_app.py.

Modelling conventions:
* a calendar date is an integer counting days since 1970-01-01 (a Thursday,
  so the Monday-based weekday index of day d is (d + 3) mod 7);
* a timestamp is an integer count of seconds since the Unix epoch, and the
  UTC calendar date of a timestamp is its floor division by 86400, exactly
  what datetime.datetime.utcfromtimestamp(ts).date() computes;
* a USD amount travels in the record as its exact decimal value (a
  rational); line 69 converts it with float() and sums with Python floats,
  so the metrics aggregation models IEEE-754 binary64 rounding explicitly
  (roundDouble below): every conversion and every addition rounds to the
  nearest double, ties to even;
* the Python dict activity_days is an association list from dates to counts
  (dict semantics: distinct keys, first match wins on lookup, assignment
  updates an existing key in place and appends a fresh key at the end);
* the wall-clock day read by datetime.date.today() is passed explicitly as
  the parameter `today` (both calculate_streaks and generate_contribution_data
  read the clock during the same analysis call);
* the network fetch is external: the transfer list is an input.
-/

/-- A transfer record: the fields of tx["receiving"] that the program uses
(timestamp in seconds, destination chain id, USD amount).  amountUSD is
the exact decimal value carried by the record; line 69 converts it to a
Python float before summing. -/
structure Tx where
  timestamp : Int
  chainId : Int
  amountUSD : Rat
deriving DecidableEq

/-- The Python dict activity_days, as an association list from day numbers
to occurrence counts. -/
abbrev ActivityMap := List (Int × Nat)

/-- Keys of an activity map, in insertion order, as for a Python dict. -/
def keys (m : ActivityMap) : List Int := m.map Prod.fst

/-- Dict lookup with a default, modelling activity_days.get(date, 0). -/
def getCount : ActivityMap → Int → Nat
  | [], _ => 0
  | (k, v) :: rest, d => if k = d then v else getCount rest d

/-- Models activity_days[date] = activity_days.get(date, 0) + 1 on a dict:
an existing key is updated in place, a fresh key is appended at the end. -/
def addDay : ActivityMap → Int → ActivityMap
  | [], d => [(d, 1)]
  | (k, v) :: rest, d => if k = d then (k, v + 1) :: rest else (k, v) :: addDay rest d

/-- UTC calendar day of a record, line 33: utcfromtimestamp truncated to the
day, i.e. the floor of timestamp / 86400.  No local-timezone conversion. -/
def txDate (tx : Tx) : Int := tx.timestamp.fdiv 86400

/-- Lines 27-36 of fetch_transactions, with the fetched transfer list
injected: returns the transactions together with the activity-day map that
the extraction loop builds. -/
def fetch_transactions (transactions : List Tx) : List Tx × ActivityMap :=
  (transactions, transactions.foldl (fun m tx => addDay m (txDate tx)) [])

/-- Line 42, sorted(activity_days.keys()).  On a linear order the ascending
permutation of a list is unique, so insertion sort is an exact model of
Python's sorted. -/
def sortedKeys (m : ActivityMap) : List Int := List.insertionSort (· ≤ ·) (keys m)

/-- The loop of calculate_streaks (lines 48-55): walks the dates carrying
the previous date, the running streak and the maximum streak seen so far.
Entering a date exactly one day after the previous one extends the running
streak, any other date resets it to 1. -/
def streakWalk : List Int → Option Int → Nat → Nat → Nat × Nat
  | [], _, cur, mx => (cur, mx)
  | d :: rest, none, _, mx => streakWalk rest (some d) 1 (max mx 1)
  | d :: rest, some p, cur, mx =>
    if d - p = 1 then streakWalk rest (some d) (cur + 1) (max mx (cur + 1))
    else streakWalk rest (some d) 1 (max mx 1)

/-- calculate_streaks (lines 38-61) with the clock day injected: returns
(active_streak, max_streak).  The active streak is the final running streak
when the last sorted date equals today, and 0 otherwise (also 0 when the
map is empty, since an empty list is falsy in Python). -/
def calculate_streaks (m : ActivityMap) (today : Int) : Nat × Nat :=
  let dates := sortedKeys m
  let w := streakWalk dates none 0 0
  (if dates.getLast? = some today then w.1 else 0, w.2)

/-- Powers of two with an integer exponent, as rationals. -/
def pow2 (e : Int) : ℚ :=
  if 0 ≤ e then ((2 ^ e.toNat : Nat) : ℚ) else 1 / ((2 ^ (-e).toNat : Nat) : ℚ)

/-- Floor of the base-2 logarithm of a rational q with 1 ≤ q; the first
argument is recursion fuel (1100 covers the whole binary64 exponent
range, whose largest finite exponent is 1023). -/
def log2Down : Nat → ℚ → Int
  | 0, _ => 0
  | fuel + 1, q => if q < 2 then 0 else log2Down fuel (q / 2) + 1

/-- Floor of the base-2 logarithm of a rational q with 0 < q < 1, a
negative integer; the first argument is recursion fuel (1100 covers the
whole binary64 exponent range, whose smallest subnormal exponent is
-1074). -/
def log2Neg : Nat → ℚ → Int
  | 0, _ => 0
  | fuel + 1, q => if 1 ≤ q then 0 else log2Neg fuel (q * 2) - 1

/-- Floor of the base-2 logarithm of a positive rational whose magnitude
lies within the binary64 exponent range. -/
def floorLog2 (q : ℚ) : Int :=
  if 1 ≤ q then log2Down 1100 q else log2Neg 1100 q

/-- IEEE-754 binary64 rounding of a positive rational in the normal finite
range: scale by the power of two that brings the value into the
significand window, split off the integer significand, round it to the
nearest integer with ties to the even neighbour, and scale back. -/
def roundPos (q : ℚ) : ℚ :=
  let e : Int := floorLog2 q - 52
  let n : ℚ := q * pow2 (-e)
  let fl : Int := ⌊n⌋
  let r : Int :=
    if n - (fl : ℚ) < 1 / 2 then fl
    else if (1 : ℚ) / 2 < n - (fl : ℚ) then fl + 1
    else if fl % 2 = 0 then fl else fl + 1
  (r : ℚ) * pow2 e

/-- IEEE-754 binary64 rounding (round to nearest, ties to even) of a
rational in the finite double range: the value Python's float() produces
for that exact value, and the rounding every double addition applies to
the exact sum of its operands.  Overflow, subnormal underflow and NaN lie
outside the modelled range, which covers every magnitude this program's
dollar amounts reach. -/
def roundDouble (q : ℚ) : ℚ :=
  if q = 0 then 0
  else if 0 < q then roundPos q
  else -roundPos (-q)

/-- One IEEE-754 binary64 addition: the exact sum of the two doubles,
correctly rounded. -/
def floatAdd (a b : ℚ) : ℚ := roundDouble (a + b)

/-- calculate_chain_and_amount (lines 63-71): the number of distinct
receiving chain ids (a Python set) and the float summation of line 69.
sum(float(tx["receiving"]["amountUSD"]) for tx in transactions) starts
from 0 and folds from the left; each amount first passes through float()
(roundDouble of its decimal value) and each addition is a binary64
addition (floatAdd). -/
def calculate_chain_and_amount (txs : List Tx) : Nat × Rat :=
  ((txs.map Tx.chainId).toFinset.card,
   txs.foldl (fun acc tx => floatAdd acc (roundDouble tx.amountUSD)) 0)

/-- Result of generate_contribution_data: `ok` models the normal 3-tuple
return of line 100, `empty` models the early return np.array([]) of line 79
on an empty map, and `error` models a ValueError raised by numpy (np.zeros
called with a negative length when today precedes the earliest date by more
than one day). -/
inductive GridResult where
  | ok (grid : List (List Nat)) (start_date end_date : Int)
  | empty
  | error
deriving DecidableEq

/-- Whether generate_contribution_data returned its normal 3-tuple. -/
def GridResult.isOk : GridResult → Bool
  | .ok _ _ _ => true
  | _ => false

/-- start_date = min(dates), line 82: the head of the ascending key list. -/
def minKey (m : ActivityMap) : Int := (sortedKeys m).head?.getD 0

/-- num_days = (end_date - start_date).days + 1, line 86, as an integer; it
is negative when today precedes the earliest key by more than one day. -/
def numDaysI (m : ActivityMap) (today : Int) : Int := today - minKey m + 1

/-- num_days clamped to Nat; equal to numDaysI whenever that is
nonnegative, which holds on every path that builds a grid. -/
def numDays (m : ActivityMap) (today : Int) : Nat := (numDaysI m today).toNat

/-- The flat daily sequence heatmap_data of lines 87-91:
activity_days.get(date, 0) for each date of the inclusive range starting at
start_date, in chronological order. -/
def dailyCounts (m : ActivityMap) (today : Int) : List Nat :=
  (List.range (numDays m today)).map fun i : Nat => getCount m (minKey m + (i : Int))

/-- start_weekday = start_date.weekday(), line 94, Monday = 0 ... Sunday = 6:
day 0 of the epoch was a Thursday, so the index is (d + 3) mod 7. -/
def leadingPad (m : ActivityMap) : Nat := ((minKey m + 3) % 7).toNat

/-- num_weeks = (num_days + start_weekday) // 7 + 1, line 95. -/
def numWeeks (m : ActivityMap) (today : Int) : Nat :=
  (numDays m today + leadingPad m) / 7 + 1

/-- np.pad(heatmap_data, (start_weekday, num_weeks * 7 - (num_days +
start_weekday)), 'constant'), line 96: leading zeros to align the first day
on its weekday row, trailing zeros to fill the last week column. -/
def paddedSeq (m : ActivityMap) (today : Int) : List Nat :=
  List.replicate (leadingPad m) 0 ++ dailyCounts m today ++
    List.replicate (numWeeks m today * 7 - (numDays m today + leadingPad m)) 0

/-- padded_data.reshape((num_weeks, 7)): w rows of 7 consecutive elements.
The argument always has length exactly 7 * w here, which is what numpy's
reshape requires. -/
def reshapeRows (l : List Nat) (w : Nat) : List (List Nat) :=
  (List.range w).map fun i => (l.drop (7 * i)).take 7

/-- The .T of line 98 on a matrix whose rows all have length 7: row r of
the transpose collects entry r of every row. -/
def transposeT (M : List (List Nat)) : List (List Nat) :=
  (List.range 7).map fun r => M.map fun row => row.getD r 0

/-- generate_contribution_data (lines 73-100) with the clock day injected. -/
def generate_contribution_data (m : ActivityMap) (today : Int) : GridResult :=
  if m = [] then .empty
  else if numDaysI m today < 0 then .error
  else .ok (transposeT (reshapeRows (paddedSeq m today) (numWeeks m today)))
    (minKey m) today

/-- Exceptions that can escape analyze_wallet_activity on the modelled
paths: the generic ValueError raised by unpacking a value that is not a
3-tuple, and the numpy ValueError for a negative array dimension. -/
inductive PyError where
  | unpackError
  | negativeDimensions
deriving DecidableEq

/-- The result dict of analyze_wallet_activity, lines 108-116. -/
structure AnalysisResult where
  num_distinct_chain_ids : Nat
  total_amount_usd : Rat
  active_streak : Nat
  longest_streak : Nat
  heatmap_data : List (List Nat)
  start_date : Int
  end_date : Int
deriving DecidableEq

/-- analyze_wallet_activity (lines 102-116) with the fetched records and
the clock day injected.  Line 106 unpacks the value returned by
generate_contribution_data into three names; when the callee returns the
bare empty array the unpacking itself raises a generic ValueError, modelled
as PyError.unpackError, and a ValueError raised inside the callee
propagates unchanged. -/
def analyze_wallet_activity (transactions : List Tx) (today : Int) :
    Except PyError AnalysisResult :=
  let fetched := fetch_transactions transactions
  let streaks := calculate_streaks fetched.2 today
  let metrics := calculate_chain_and_amount fetched.1
  match generate_contribution_data fetched.2 today with
  | .ok g s e => .ok ⟨metrics.1, metrics.2, streaks.1, streaks.2, g, s, e⟩
  | .empty => .error .unpackError
  | .error => .error .negativeDimensions

/-- Spec-side definition, helper: given the previous date and the length of
the maximal run it currently ends, the lengths of the maximal runs of
consecutive days of the remaining ascending date list. -/
def runLengthsAux : Int → Nat → List Int → List Nat
  | _, cur, [] => [cur]
  | p, cur, d :: rest =>
    if d - p = 1 then runLengthsAux d (cur + 1) rest
    else cur :: runLengthsAux d 1 rest

/-- Spec-side definition: the decomposition of an ascending date list into
maximal runs of consecutive calendar days, as the list of run lengths. -/
def runLengths : List Int → List Nat
  | [] => []
  | d :: rest => runLengthsAux d 1 rest

/-- Sum of all counts stored in an activity map. -/
def valuesSum (m : ActivityMap) : Nat := (m.map Prod.snd).sum

/-- Sum of all cells of a grid. -/
def gridSum (g : List (List Nat)) : Nat := (g.map List.sum).sum

/-- Total number of cells of a grid. -/
def cellCount (g : List (List Nat)) : Nat := (g.map List.length).sum

/-- Cell of a grid at row r, column c (0 outside the grid). -/
def cell (g : List (List Nat)) (r c : Nat) : Nat := (g.getD r []).getD c 0

/-- Activity on 2024-01-01 (day 19723, a Monday), 2024-01-02 and
2024-01-10 (day 19732): scenario 3 of the specification. -/
def scenario3Map : ActivityMap := [(19723, 1), (19724, 1), (19732, 1)]

-- ===================================================================
-- Theorems
-- ===================================================================

theorem getCount_addDay (m : ActivityMap) (e d : Int) :
    getCount (addDay m e) d = getCount m d + (if d = e then 1 else 0) := by
  induction m with
  | nil =>
    simp only [addDay, getCount]
    split_ifs <;> omega
  | cons p rest ih =>
    obtain ⟨k, v⟩ := p
    simp only [addDay]
    split_ifs with hk hd hd
    · simp only [getCount]; split_ifs <;> omega
    · simp only [getCount]; split_ifs <;> omega
    · simp only [getCount]; rw [ih]; split_ifs <;> omega
    · simp only [getCount]; rw [ih]; split_ifs <;> omega

theorem mem_keys_addDay (m : ActivityMap) (e d : Int) :
    d ∈ keys (addDay m e) ↔ d ∈ keys m ∨ d = e := by
  induction m with
  | nil => simp [addDay, keys]
  | cons p rest ih =>
    obtain ⟨k, v⟩ := p
    simp only [addDay]
    split_ifs with hk
    · subst hk
      simp only [keys, List.map_cons, List.mem_cons]
      tauto
    · simp only [keys, List.map_cons, List.mem_cons] at ih ⊢
      rw [ih]
      tauto

theorem nodup_keys_addDay (m : ActivityMap) (e : Int) (h : (keys m).Nodup) :
    (keys (addDay m e)).Nodup := by
  induction m with
  | nil => simp [addDay, keys]
  | cons p rest ih =>
    obtain ⟨k, v⟩ := p
    simp only [keys, List.map_cons, List.nodup_cons] at h
    simp only [addDay]
    split_ifs with hk
    · simp only [keys, List.map_cons, List.nodup_cons]
      exact h
    · simp only [keys, List.map_cons, List.nodup_cons]
      refine ⟨?_, ih h.2⟩
      intro hmem
      rcases (mem_keys_addDay rest e k).1 hmem with hm | hm
      · exact h.1 hm
      · exact hk hm

theorem getCount_eq_zero_of_not_mem (m : ActivityMap) (d : Int)
    (h : d ∉ keys m) : getCount m d = 0 := by
  induction m with
  | nil => rfl
  | cons p rest ih =>
    obtain ⟨k, v⟩ := p
    simp only [keys, List.map_cons, List.mem_cons] at h
    push_neg at h
    simp only [getCount]
    rw [if_neg (fun hk => h.1 hk.symm)]
    exact ih h.2

theorem one_le_getCount (m : ActivityMap) (d : Int)
    (hp : ∀ p ∈ m, 1 ≤ Prod.snd p) (h : d ∈ keys m) : 1 ≤ getCount m d := by
  induction m with
  | nil => simp [keys] at h
  | cons p rest ih =>
    obtain ⟨k, v⟩ := p
    simp only [keys, List.map_cons, List.mem_cons] at h
    simp only [getCount]
    by_cases hk : k = d
    · rw [if_pos hk]
      exact hp (k, v) (List.mem_cons_self _ _)
    · rw [if_neg hk]
      rcases h with h | h
      · exact absurd h.symm hk
      · exact ih (fun p hp2 => hp p (List.mem_cons_of_mem _ hp2)) h

theorem getCount_fold (txs : List Tx) (m : ActivityMap) (d : Int) :
    getCount (txs.foldl (fun m tx => addDay m (txDate tx)) m) d =
      getCount m d + (txs.filter (fun tx => txDate tx = d)).length := by
  induction txs generalizing m with
  | nil => simp
  | cons tx rest ih =>
    simp only [List.foldl_cons, List.filter_cons]
    rw [ih, getCount_addDay]
    by_cases h : txDate tx = d
    · rw [if_pos (decide_eq_true h), if_pos h.symm, List.length_cons]
      omega
    · rw [if_neg (fun he => h he.symm), if_neg (fun he => h (of_decide_eq_true he))]
      omega

theorem mem_keys_fold (txs : List Tx) (m : ActivityMap) (d : Int) :
    d ∈ keys (txs.foldl (fun m tx => addDay m (txDate tx)) m) ↔
      d ∈ keys m ∨ ∃ tx ∈ txs, txDate tx = d := by
  induction txs generalizing m with
  | nil => simp
  | cons tx rest ih =>
    simp only [List.foldl_cons]
    rw [ih, mem_keys_addDay]
    constructor
    · rintro ((h | h) | h)
      · exact Or.inl h
      · exact Or.inr ⟨tx, List.mem_cons_self _ _, h.symm⟩
      · obtain ⟨t, ht, he⟩ := h
        exact Or.inr ⟨t, List.mem_cons_of_mem _ ht, he⟩
    · rintro (h | ⟨t, ht, he⟩)
      · exact Or.inl (Or.inl h)
      · rcases List.mem_cons.1 ht with rfl | ht2
        · exact Or.inl (Or.inr he.symm)
        · exact Or.inr ⟨t, ht2, he⟩

theorem nodup_keys_fold (txs : List Tx) (m : ActivityMap)
    (h : (keys m).Nodup) :
    (keys (txs.foldl (fun m tx => addDay m (txDate tx)) m)).Nodup := by
  induction txs generalizing m with
  | nil => exact h
  | cons tx rest ih =>
    simp only [List.foldl_cons]
    exact ih _ (nodup_keys_addDay m (txDate tx) h)

theorem pos_vals_addDay (m : ActivityMap) (e : Int)
    (h : ∀ p ∈ m, 1 ≤ Prod.snd p) : ∀ p ∈ addDay m e, 1 ≤ Prod.snd p := by
  induction m with
  | nil => simp [addDay]
  | cons q rest ih =>
    obtain ⟨k, v⟩ := q
    simp only [addDay]
    split_ifs with hk
    · rintro p hp
      rcases List.mem_cons.1 hp with rfl | hp2
      · simp
      · exact h p (List.mem_cons_of_mem _ hp2)
    · rintro p hp
      rcases List.mem_cons.1 hp with rfl | hp2
      · exact h _ (List.mem_cons_self _ _)
      · exact ih (fun q hq => h q (List.mem_cons_of_mem _ hq)) p hp2

theorem pos_vals_fold (txs : List Tx) (m : ActivityMap)
    (h : ∀ p ∈ m, 1 ≤ Prod.snd p) :
    ∀ p ∈ txs.foldl (fun m tx => addDay m (txDate tx)) m, 1 ≤ Prod.snd p := by
  induction txs generalizing m with
  | nil => exact h
  | cons tx rest ih =>
    simp only [List.foldl_cons]
    exact ih _ (pos_vals_addDay m (txDate tx) h)

/-- C6.  For every sequence of transfer records, the activity map built by
fetch_transactions maps each UTC calendar date to exactly the number of
records whose timestamp falls on that date, has a key exactly for the dates
with at least one record, and (being a dict) has no duplicate keys. -/
theorem activity_map_counts_records (txs : List Tx) (d : Int) :
    getCount (fetch_transactions txs).2 d =
        (txs.filter (fun tx => txDate tx = d)).length ∧
    (d ∈ keys (fetch_transactions txs).2 ↔
        0 < (txs.filter (fun tx => txDate tx = d)).length) ∧
    (keys (fetch_transactions txs).2).Nodup := by
  refine ⟨?_, ?_, ?_⟩
  · have := getCount_fold txs [] d
    simpa [getCount] using this
  · rw [show (fetch_transactions txs).2 =
        txs.foldl (fun m tx => addDay m (txDate tx)) [] from rfl]
    rw [mem_keys_fold]
    simp only [keys, List.map_nil, List.not_mem_nil, false_or]
    rw [← List.countP_eq_length_filter, List.countP_pos_iff]
    constructor
    · rintro ⟨t, ht, he⟩
      exact ⟨t, ht, decide_eq_true he⟩
    · rintro ⟨t, ht, he⟩
      exact ⟨t, ht, of_decide_eq_true he⟩
  · exact nodup_keys_fold txs [] (by simp [keys])

/-- C9.  For empty input the streak computation returns (0, 0) and the
metrics computation returns (0, 0): both degrade to zero-valued identity
results instead of failing, for every clock day. -/
theorem empty_input_zero_results (today : Int) :
    calculate_streaks [] today = (0, 0) ∧
    calculate_chain_and_amount [] = (0, 0) :=
  ⟨rfl, rfl⟩

theorem log2Neg_ge_one (fuel : Nat) (q : ℚ) (h : 1 ≤ q) : log2Neg fuel q = 0 := by
  cases fuel with
  | zero => rfl
  | succ fuel =>
    simp only [log2Neg]
    rw [if_pos h]

theorem log2Down_eq (fuel k : Nat) (q : ℚ) (hk : k ≤ fuel)
    (h1 : 2 ^ k ≤ q) (h2 : q < 2 ^ (k + 1)) :
    log2Down fuel q = (k : Int) := by
  induction fuel generalizing k q with
  | zero =>
    have hk0 : k = 0 := by omega
    subst hk0
    rfl
  | succ fuel ih =>
    simp only [log2Down]
    split_ifs with hq
    · rcases Nat.eq_zero_or_pos k with rfl | hpos
      · simp
      · exfalso
        have h2k : (2 : ℚ) ≤ 2 ^ k := by
          calc (2 : ℚ) = 2 ^ 1 := (pow_one 2).symm
            _ ≤ 2 ^ k := pow_le_pow_right₀ (by norm_num) hpos
        linarith
    · push_neg at hq
      rcases Nat.eq_zero_or_pos k with rfl | hpos
      · exfalso
        rw [pow_one] at h2
        linarith
      · obtain ⟨k2, rfl⟩ : ∃ k2, k = k2 + 1 := ⟨k - 1, by omega⟩
        have hb1 : (2 : ℚ) ^ k2 ≤ q / 2 := by
          rw [le_div_iff₀ (by norm_num : (0 : ℚ) < 2)]
          calc (2 : ℚ) ^ k2 * 2 = 2 ^ (k2 + 1) := (pow_succ 2 k2).symm
            _ ≤ q := h1
        have hb2 : q / 2 < 2 ^ (k2 + 1) := by
          rw [div_lt_iff₀ (by norm_num : (0 : ℚ) < 2)]
          calc q < 2 ^ (k2 + 1 + 1) := h2
            _ = 2 ^ (k2 + 1) * 2 := pow_succ 2 (k2 + 1)
        rw [ih k2 (q / 2) (by omega) hb1 hb2]
        push_cast
        ring

theorem log2Neg_eq (fuel j : Nat) (q : ℚ) (hq0 : 0 < q) (hj : 1 ≤ j)
    (hjf : j ≤ fuel) (h1 : 1 ≤ q * 2 ^ j) (h2 : q * 2 ^ j < 2) :
    log2Neg fuel q = -(j : Int) := by
  induction fuel generalizing j q with
  | zero => omega
  | succ fuel ih =>
    simp only [log2Neg]
    have h2j : (2 : ℚ) ≤ 2 ^ j := by
      calc (2 : ℚ) = 2 ^ 1 := (pow_one 2).symm
        _ ≤ 2 ^ j := pow_le_pow_right₀ (by norm_num) hj
    have hp : (0 : ℚ) < 2 ^ j := by positivity
    have hq1 : ¬ 1 ≤ q := by
      intro hge
      have hbig : (2 : ℚ) ≤ q * 2 ^ j := by
        calc (2 : ℚ) ≤ 2 ^ j := h2j
          _ = 1 * 2 ^ j := (one_mul _).symm
          _ ≤ q * 2 ^ j := mul_le_mul_of_nonneg_right hge hp.le
      linarith
    rw [if_neg hq1]
    rcases eq_or_lt_of_le hj with hj1 | hj2
    · have hone : 1 ≤ q * 2 := by
        rw [← hj1, pow_one] at h1
        exact h1
      rw [log2Neg_ge_one fuel (q * 2) hone, ← hj1]
      norm_num
    · obtain ⟨j2, rfl⟩ : ∃ j2, j = j2 + 1 := ⟨j - 1, by omega⟩
      have hb1 : 1 ≤ (q * 2) * 2 ^ j2 := by
        calc (1 : ℚ) ≤ q * 2 ^ (j2 + 1) := h1
          _ = q * 2 * 2 ^ j2 := by rw [pow_succ]; ring
      have hb2 : (q * 2) * 2 ^ j2 < 2 := by
        calc q * 2 * 2 ^ j2 = q * 2 ^ (j2 + 1) := by rw [pow_succ]; ring
          _ < 2 := h2
      rw [ih j2 (q * 2) (by linarith) (by omega) (by omega) hb1 hb2]
      push_cast
      ring

theorem floorLog2_nonneg_eq (q : ℚ) (k : Nat) (hk : k ≤ 1100)
    (h1 : 2 ^ k ≤ q) (h2 : q < 2 ^ (k + 1)) : floorLog2 q = (k : Int) := by
  unfold floorLog2
  have hq1 : 1 ≤ q := by
    calc (1 : ℚ) = 2 ^ 0 := (pow_zero 2).symm
      _ ≤ 2 ^ k := pow_le_pow_right₀ (by norm_num) (Nat.zero_le k)
      _ ≤ q := h1
  rw [if_pos hq1]
  exact log2Down_eq 1100 k q hk h1 h2

theorem floorLog2_neg_eq (q : ℚ) (j : Nat) (hq0 : 0 < q) (hj : 1 ≤ j)
    (hjf : j ≤ 1100) (h1 : 1 ≤ q * 2 ^ j) (h2 : q * 2 ^ j < 2) :
    floorLog2 q = -(j : Int) := by
  unfold floorLog2
  have h2j : (2 : ℚ) ≤ 2 ^ j := by
    calc (2 : ℚ) = 2 ^ 1 := (pow_one 2).symm
      _ ≤ 2 ^ j := pow_le_pow_right₀ (by norm_num) hj
  have hp : (0 : ℚ) < 2 ^ j := by positivity
  have hq1 : ¬ 1 ≤ q := by
    intro hge
    have hbig : (2 : ℚ) ≤ q * 2 ^ j := by
      calc (2 : ℚ) ≤ 2 ^ j := h2j
        _ = 1 * 2 ^ j := (one_mul _).symm
        _ ≤ q * 2 ^ j := mul_le_mul_of_nonneg_right hge hp.le
    linarith
  rw [if_neg hq1]
  exact log2Neg_eq 1100 j q hq0 hj hjf h1 h2

theorem roundDouble_eq_down (q : ℚ) (k fl : Int) (hq : 0 < q)
    (hlog : floorLog2 q = k)
    (hf1 : (fl : ℚ) ≤ q * pow2 (52 - k))
    (hf2 : q * pow2 (52 - k) < (fl : ℚ) + 1 / 2) :
    roundDouble q = (fl : ℚ) * pow2 (k - 52) := by
  unfold roundDouble
  rw [if_neg hq.ne', if_pos hq]
  simp only [roundPos]
  rw [hlog, (by omega : -(k - 52) = 52 - k)]
  have hfl : ⌊q * pow2 (52 - k)⌋ = fl :=
    Int.floor_eq_iff.2 ⟨hf1, by linarith⟩
  rw [hfl, if_pos (by linarith : q * pow2 (52 - k) - (fl : ℚ) < 1 / 2)]

theorem roundDouble_eq_up (q : ℚ) (k fl : Int) (hq : 0 < q)
    (hlog : floorLog2 q = k)
    (hf1 : (fl : ℚ) + 1 / 2 < q * pow2 (52 - k))
    (hf2 : q * pow2 (52 - k) < (fl : ℚ) + 1) :
    roundDouble q = ((fl : ℚ) + 1) * pow2 (k - 52) := by
  unfold roundDouble
  rw [if_neg hq.ne', if_pos hq]
  simp only [roundPos]
  rw [hlog, (by omega : -(k - 52) = 52 - k)]
  have hfl : ⌊q * pow2 (52 - k)⌋ = fl :=
    Int.floor_eq_iff.2 ⟨by linarith, hf2⟩
  rw [hfl, if_neg (by linarith : ¬(q * pow2 (52 - k) - (fl : ℚ) < 1 / 2)),
    if_pos (by linarith : (1 : ℚ) / 2 < q * pow2 (52 - k) - (fl : ℚ))]
  push_cast
  ring

theorem roundDouble_eq_tie_odd (q : ℚ) (k fl : Int) (hq : 0 < q)
    (hlog : floorLog2 q = k)
    (heq : q * pow2 (52 - k) = (fl : ℚ) + 1 / 2)
    (hodd : fl % 2 = 1) :
    roundDouble q = ((fl : ℚ) + 1) * pow2 (k - 52) := by
  unfold roundDouble
  rw [if_neg hq.ne', if_pos hq]
  simp only [roundPos]
  rw [hlog, (by omega : -(k - 52) = 52 - k)]
  have hfl : ⌊q * pow2 (52 - k)⌋ = fl :=
    Int.floor_eq_iff.2 ⟨by linarith, by linarith⟩
  rw [hfl, if_neg (by linarith : ¬(q * pow2 (52 - k) - (fl : ℚ) < 1 / 2)),
    if_neg (by linarith : ¬((1 : ℚ) / 2 < q * pow2 (52 - k) - (fl : ℚ))),
    if_neg (by omega : ¬(fl % 2 = 0))]
  push_cast
  ring

/-- C7 (amended).  calculate_chain_and_amount returns the cardinality of
the set of destination chain ids, and as totalUsd the IEEE-754 binary64
left-fold sum of the float()-converted amounts — not the exact rational
sum in general (see the counterexample).  On the scenario every amount
and every partial sum is exactly representable, so chain ids 1, 1, 2 with
amounts 10.5, 5.25, 100 still give exactly 2 distinct chains and a total
of 115.75, and empty input gives (0, 0.0). -/
theorem metrics_distinct_and_total :
    (∀ txs : List Tx, calculate_chain_and_amount txs =
        ((txs.map Tx.chainId).toFinset.card,
         txs.foldl (fun acc tx => roundDouble (acc + roundDouble tx.amountUSD)) 0)) ∧
    calculate_chain_and_amount [] = (0, 0) ∧
    calculate_chain_and_amount
        [⟨0, 1, 10.5⟩, ⟨0, 1, 5.25⟩, ⟨0, 2, 100⟩] = (2, 115.75) := by
  refine ⟨fun txs => rfl, rfl, ?_⟩
  have e105 : roundDouble (10.5 : ℚ) = 10.5 := by
    have hl : floorLog2 (10.5 : ℚ) = (3 : Int) := by
      exact_mod_cast floorLog2_nonneg_eq 10.5 3 (by norm_num) (by norm_num) (by norm_num)
    rw [roundDouble_eq_down 10.5 3 5910974510923776 (by norm_num) hl
      (by norm_num [pow2]; rw [(show Int.toNat 49 = 49 from rfl)]; norm_num)
      (by norm_num [pow2]; rw [(show Int.toNat 49 = 49 from rfl)]; norm_num)]
    norm_num [pow2]
    rw [(show Int.toNat 49 = 49 from rfl)]
    norm_num
  have e525 : roundDouble (5.25 : ℚ) = 5.25 := by
    have hl : floorLog2 (5.25 : ℚ) = (2 : Int) := by
      exact_mod_cast floorLog2_nonneg_eq 5.25 2 (by norm_num) (by norm_num) (by norm_num)
    rw [roundDouble_eq_down 5.25 2 5910974510923776 (by norm_num) hl
      (by norm_num [pow2]; rw [(show Int.toNat 50 = 50 from rfl)]; norm_num)
      (by norm_num [pow2]; rw [(show Int.toNat 50 = 50 from rfl)]; norm_num)]
    norm_num [pow2]
    rw [(show Int.toNat 50 = 50 from rfl)]
    norm_num
  have e100 : roundDouble (100 : ℚ) = 100 := by
    have hl : floorLog2 (100 : ℚ) = (6 : Int) := by
      exact_mod_cast floorLog2_nonneg_eq 100 6 (by norm_num) (by norm_num) (by norm_num)
    rw [roundDouble_eq_down 100 6 7036874417766400 (by norm_num) hl
      (by norm_num [pow2]; rw [(show Int.toNat 46 = 46 from rfl)]; norm_num)
      (by norm_num [pow2]; rw [(show Int.toNat 46 = 46 from rfl)]; norm_num)]
    norm_num [pow2]
    rw [(show Int.toNat 46 = 46 from rfl)]
    norm_num
  have e1575 : roundDouble (15.75 : ℚ) = 15.75 := by
    have hl : floorLog2 (15.75 : ℚ) = (3 : Int) := by
      exact_mod_cast floorLog2_nonneg_eq 15.75 3 (by norm_num) (by norm_num) (by norm_num)
    rw [roundDouble_eq_down 15.75 3 8866461766385664 (by norm_num) hl
      (by norm_num [pow2]; rw [(show Int.toNat 49 = 49 from rfl)]; norm_num)
      (by norm_num [pow2]; rw [(show Int.toNat 49 = 49 from rfl)]; norm_num)]
    norm_num [pow2]
    rw [(show Int.toNat 49 = 49 from rfl)]
    norm_num
  have e11575 : roundDouble (115.75 : ℚ) = 115.75 := by
    have hl : floorLog2 (115.75 : ℚ) = (6 : Int) := by
      exact_mod_cast floorLog2_nonneg_eq 115.75 6 (by norm_num) (by norm_num) (by norm_num)
    rw [roundDouble_eq_down 115.75 6 8145182138564608 (by norm_num) hl
      (by norm_num [pow2]; rw [(show Int.toNat 46 = 46 from rfl)]; norm_num)
      (by norm_num [pow2]; rw [(show Int.toNat 46 = 46 from rfl)]; norm_num)]
    norm_num [pow2]
    rw [(show Int.toNat 46 = 46 from rfl)]
    norm_num
  unfold calculate_chain_and_amount
  simp only [List.map_cons, List.map_nil, List.foldl_cons, List.foldl_nil, floatAdd]
  rw [e105, e525, e100, zero_add, e105,
    (by norm_num : (10.5 : ℚ) + 5.25 = 15.75), e1575,
    (by norm_num : (15.75 : ℚ) + 100 = 115.75), e11575]
  norm_num

/-- C7 (counterexample).  Records carrying the decimal amounts 0.1 and 0.2
refute the exact-sum claim: float() parses them to the nearest binary64
values 3602879701896397 / 2^55 and 3602879701896397 / 2^54, and the double
addition of line 69 rounds their exact sum half-to-even, giving
5404319552844596 / 2^54 = 0.30000000000000004..., which is not the exact
sum 0.3 = 3/10 of the amounts. -/
theorem metrics_total_counterexample :
    (calculate_chain_and_amount [⟨0, 1, 0.1⟩, ⟨0, 2, 0.2⟩]).2 =
      5404319552844596 / 2 ^ 54 ∧
    (calculate_chain_and_amount [⟨0, 1, 0.1⟩, ⟨0, 2, 0.2⟩]).2 ≠ 0.1 + 0.2 := by
  have e01 : roundDouble (0.1 : ℚ) = 7205759403792794 / 2 ^ 56 := by
    have hl : floorLog2 (0.1 : ℚ) = (-4 : Int) := by
      exact_mod_cast floorLog2_neg_eq 0.1 4 (by norm_num) (by norm_num) (by norm_num)
        (by norm_num) (by norm_num)
    rw [roundDouble_eq_up 0.1 (-4) 7205759403792793 (by norm_num) hl
      (by norm_num [pow2]; rw [(show Int.toNat 56 = 56 from rfl)]; norm_num)
      (by norm_num [pow2]; rw [(show Int.toNat 56 = 56 from rfl)]; norm_num)]
    norm_num [pow2]
    rw [(show Int.toNat 56 = 56 from rfl)]
    norm_num
  have e02 : roundDouble (0.2 : ℚ) = 7205759403792794 / 2 ^ 55 := by
    have hl : floorLog2 (0.2 : ℚ) = (-3 : Int) := by
      exact_mod_cast floorLog2_neg_eq 0.2 3 (by norm_num) (by norm_num) (by norm_num)
        (by norm_num) (by norm_num)
    rw [roundDouble_eq_up 0.2 (-3) 7205759403792793 (by norm_num) hl
      (by norm_num [pow2]; rw [(show Int.toNat 55 = 55 from rfl)]; norm_num)
      (by norm_num [pow2]; rw [(show Int.toNat 55 = 55 from rfl)]; norm_num)]
    norm_num [pow2]
    rw [(show Int.toNat 55 = 55 from rfl)]
    norm_num
  have ev1 : roundDouble ((7205759403792794 : ℚ) / 2 ^ 56) =
      7205759403792794 / 2 ^ 56 := by
    have hl : floorLog2 ((7205759403792794 : ℚ) / 2 ^ 56) = (-4 : Int) := by
      exact_mod_cast floorLog2_neg_eq _ 4 (by norm_num) (by norm_num) (by norm_num)
        (by norm_num) (by norm_num)
    rw [roundDouble_eq_down _ (-4) 7205759403792794 (by norm_num) hl
      (by norm_num [pow2]; rw [(show Int.toNat 56 = 56 from rfl)]; norm_num)
      (by norm_num [pow2]; rw [(show Int.toNat 56 = 56 from rfl)]; norm_num)]
    norm_num [pow2]
    rw [(show Int.toNat 56 = 56 from rfl)]
    norm_num
  have esum : roundDouble
      ((7205759403792794 : ℚ) / 2 ^ 56 + 7205759403792794 / 2 ^ 55) =
      5404319552844596 / 2 ^ 54 := by
    have hl : floorLog2
        ((7205759403792794 : ℚ) / 2 ^ 56 + 7205759403792794 / 2 ^ 55) =
        (-2 : Int) := by
      exact_mod_cast floorLog2_neg_eq _ 2 (by norm_num) (by norm_num) (by norm_num)
        (by norm_num) (by norm_num)
    rw [roundDouble_eq_tie_odd _ (-2) 5404319552844595 (by norm_num) hl
      (by norm_num [pow2]; rw [(show Int.toNat 54 = 54 from rfl)]; norm_num)
      (by norm_num)]
    norm_num [pow2]
    rw [(show Int.toNat 54 = 54 from rfl)]
    norm_num
  have hval : (calculate_chain_and_amount [⟨0, 1, 0.1⟩, ⟨0, 2, 0.2⟩]).2 =
      5404319552844596 / 2 ^ 54 := by
    unfold calculate_chain_and_amount
    simp only [List.foldl_cons, List.foldl_nil, floatAdd]
    rw [e01, e02, zero_add, ev1, esum]
  refine ⟨hval, ?_⟩
  rw [hval]
  norm_num

theorem runLengthsAux_ne_nil (p : Int) (c : Nat) (l : List Int) :
    runLengthsAux p c l ≠ [] := by
  induction l generalizing p c with
  | nil => simp [runLengthsAux]
  | cons d rest ih =>
    simp only [runLengthsAux]
    split_ifs
    · exact ih d (c + 1)
    · simp

theorem le_foldr_max_runLengthsAux (p : Int) (c : Nat) (l : List Int) :
    c ≤ (runLengthsAux p c l).foldr max 0 := by
  induction l generalizing p c with
  | nil =>
    simp only [runLengthsAux, List.foldr_cons, List.foldr_nil]
    exact Nat.le_max_left c 0
  | cons d rest ih =>
    simp only [runLengthsAux]
    split_ifs
    · exact le_trans (Nat.le_succ c) (ih d (c + 1))
    · simp only [List.foldr_cons]
      exact Nat.le_max_left c _

theorem getLastD_irrel (L : List Nat) (a b : Nat) (h : L ≠ []) :
    L.getLastD a = L.getLastD b := by
  cases L with
  | nil => exact absurd rfl h
  | cons x xs => rw [List.getLastD_cons, List.getLastD_cons]

theorem streakWalk_eq_runLengths (l : List Int) (p : Int) (cur mx : Nat)
    (h : cur ≤ mx) :
    streakWalk l (some p) cur mx =
      ((runLengthsAux p cur l).getLastD 0,
       max mx ((runLengthsAux p cur l).foldr max 0)) := by
  induction l generalizing p cur mx with
  | nil =>
    simp only [streakWalk, runLengthsAux, List.foldr_cons, List.foldr_nil]
    rw [List.getLastD_cons, Nat.max_zero, max_eq_left h]
    rfl
  | cons d rest ih =>
    simp only [streakWalk, runLengthsAux]
    split_ifs with hd
    · rw [ih d (cur + 1) (max mx (cur + 1)) (Nat.le_max_right mx (cur + 1))]
      have hF := le_foldr_max_runLengthsAux d (cur + 1) rest
      congr 1
      rw [max_assoc, max_eq_right hF]
    · rw [ih d 1 (max mx 1) (Nat.le_max_right mx 1)]
      have hne := runLengthsAux_ne_nil d 1 rest
      have hF := le_foldr_max_runLengthsAux d 1 rest
      rw [List.getLastD_cons, getLastD_irrel _ cur 0 hne, List.foldr_cons]
      congr 1
      rw [max_assoc, max_eq_right hF, ← max_assoc, max_eq_left h]

theorem le_streakWalk_snd (l : List Int) (prev : Option Int) (cur mx : Nat) :
    mx ≤ (streakWalk l prev cur mx).2 := by
  induction l generalizing prev cur mx with
  | nil => simp [streakWalk]
  | cons d rest ih =>
    cases prev with
    | none =>
      simp only [streakWalk]
      exact le_trans (Nat.le_max_left mx 1) (ih (some d) 1 (max mx 1))
    | some p =>
      simp only [streakWalk]
      split_ifs
      · exact le_trans (Nat.le_max_left mx (cur + 1)) (ih (some d) (cur + 1) _)
      · exact le_trans (Nat.le_max_left mx 1) (ih (some d) 1 (max mx 1))

theorem streakWalk_fst_le (l : List Int) (prev : Option Int) (cur mx : Nat)
    (h : cur ≤ mx) :
    (streakWalk l prev cur mx).1 ≤ (streakWalk l prev cur mx).2 := by
  induction l generalizing prev cur mx with
  | nil => simpa [streakWalk] using h
  | cons d rest ih =>
    cases prev with
    | none =>
      simp only [streakWalk]
      exact ih (some d) 1 (max mx 1) (Nat.le_max_right mx 1)
    | some p =>
      simp only [streakWalk]
      split_ifs
      · exact ih (some d) (cur + 1) _ (Nat.le_max_right mx (cur + 1))
      · exact ih (some d) 1 (max mx 1) (Nat.le_max_right mx 1)

theorem sortedKeys_perm (m : ActivityMap) : (sortedKeys m).Perm (keys m) :=
  List.perm_insertionSort _ _

theorem sortedKeys_sorted (m : ActivityMap) :
    List.Sorted (· ≤ ·) (sortedKeys m) :=
  List.sorted_insertionSort _ _

theorem sortedKeys_ne_nil (m : ActivityMap) (h : m ≠ []) :
    sortedKeys m ≠ [] := by
  intro hnil
  have hlen := (sortedKeys_perm m).length_eq
  rw [hnil] at hlen
  simp only [List.length_nil, keys, List.length_map] at hlen
  exact h (List.length_eq_zero.1 hlen.symm)

theorem minKey_le (m : ActivityMap) (k : Int) (hk : k ∈ keys m) :
    minKey m ≤ k := by
  have hmem : k ∈ sortedKeys m := (sortedKeys_perm m).mem_iff.2 hk
  have hsorted := sortedKeys_sorted m
  unfold minKey
  cases hs : sortedKeys m with
  | nil => rw [hs] at hmem; simp at hmem
  | cons a t =>
    rw [hs] at hmem hsorted
    simp only [List.head?_cons, Option.getD_some]
    rcases List.mem_cons.1 hmem with rfl | hmem2
    · exact le_refl k
    · exact (List.sorted_cons.1 hsorted).1 k hmem2

theorem minKey_mem (m : ActivityMap) (h : m ≠ []) : minKey m ∈ keys m := by
  have hne := sortedKeys_ne_nil m h
  refine (sortedKeys_perm m).mem_iff.1 ?_
  unfold minKey
  cases hs : sortedKeys m with
  | nil => exact absurd hs hne
  | cons a t => simp

/-- C3.  calculate_streaks returns as its longest streak the maximum length
over the maximal runs of consecutive calendar dates among the sorted map
keys (the walk resets its counter to 1 on a gap, never to 0), and as its
current streak the final run length when the latest key equals today and 0
otherwise; in particular keys 2024-01-01, 2024-01-02, 2024-01-10 with
today = 2024-01-10 give current streak 1 and longest streak 2. -/
theorem streaks_match_run_decomposition :
    (∀ (m : ActivityMap) (today : Int),
       calculate_streaks m today =
         ((if (sortedKeys m).getLast? = some today
             then (runLengths (sortedKeys m)).getLastD 0 else 0),
          (runLengths (sortedKeys m)).foldr max 0)) ∧
    calculate_streaks scenario3Map 19732 = (1, 2) := by
  constructor
  · intro m today
    simp only [calculate_streaks]
    cases hs : sortedKeys m with
    | nil => simp [streakWalk, runLengths]
    | cons d rest =>
      have hw : streakWalk (d :: rest) none 0 0 = streakWalk rest (some d) 1 1 := rfl
      rw [hw, streakWalk_eq_runLengths rest d 1 1 (le_refl 1)]
      simp only [runLengths]
      have hF := le_foldr_max_runLengthsAux d 1 rest
      rw [max_eq_right hF]
  · decide

/-- C8.  The streak results satisfy the invariants: a positive current
streak never exceeds the longest streak, and a non-empty activity map
yields a longest streak of at least 1. -/
theorem streak_invariants (m : ActivityMap) (today : Int) :
    (0 < (calculate_streaks m today).1 →
       (calculate_streaks m today).1 ≤ (calculate_streaks m today).2) ∧
    (m ≠ [] → 1 ≤ (calculate_streaks m today).2) := by
  constructor
  · intro hpos
    simp only [calculate_streaks] at hpos ⊢
    split_ifs at hpos ⊢ with hc
    · exact streakWalk_fst_le (sortedKeys m) none 0 0 (le_refl 0)
    · exact absurd hpos (lt_irrefl 0)
  · intro hne
    simp only [calculate_streaks]
    cases hs : sortedKeys m with
    | nil => exact absurd hs (sortedKeys_ne_nil m hne)
    | cons d rest =>
      exact le_streakWalk_snd rest (some d) 1 1

theorem streak_invariants_witness :
    (calculate_streaks scenario3Map 19732).1 ≤ (calculate_streaks scenario3Map 19732).2 ∧
    1 ≤ (calculate_streaks scenario3Map 19732).2 :=
  ⟨(streak_invariants scenario3Map 19732).1 (by decide),
   (streak_invariants scenario3Map 19732).2 (by decide)⟩

theorem sum_map_add {α : Type} (l : List α) (f g : α → Nat) :
    (l.map fun x => f x + g x).sum = (l.map f).sum + (l.map g).sum := by
  induction l with
  | nil => simp
  | cons x rest ih =>
    simp only [List.map_cons, List.sum_cons]
    rw [ih]
    omega

theorem getD_range_map {α : Type} (f : Nat → α) (n i : Nat) (d : α)
    (h : i < n) : ((List.range n).map f).getD i d = f i := by
  rw [List.getD_eq_getElem?_getD, List.getElem?_map, List.getElem?_range h]
  rfl

theorem sum_take_of_le (k : Nat) (l : List Nat) (h : k ≤ l.length) :
    ((List.range k).map fun r => l.getD r 0).sum = (l.take k).sum := by
  induction k with
  | zero => simp
  | succ k ih =>
    rw [List.range_succ, List.map_append, List.sum_append, ih (le_of_lt h)]
    have hk : k < l.length := h
    rw [List.take_succ, List.sum_append]
    simp only [List.map_cons, List.map_nil, List.sum_cons, List.sum_nil]
    rw [List.getD_eq_getElem?_getD, List.getElem?_eq_getElem hk]
    simp

theorem swap_sum {α : Type} (M : List α) (n : Nat) (f : α → Nat → Nat) :
    ((List.range n).map fun r => (M.map fun x => f x r).sum).sum =
      (M.map fun x => ((List.range n).map fun r => f x r).sum).sum := by
  induction M with
  | nil => simp
  | cons x rest ih =>
    simp only [List.map_cons, List.sum_cons]
    rw [← ih, ← sum_map_add]

theorem reshapeRows_row_length (l : List Nat) (w : Nat)
    (h : l.length = 7 * w) : ∀ row ∈ reshapeRows l w, row.length = 7 := by
  intro row hrow
  simp only [reshapeRows, List.mem_map, List.mem_range] at hrow
  obtain ⟨i, hi, rfl⟩ := hrow
  rw [List.length_take, List.length_drop, h]
  omega

theorem sum_reshape (w : Nat) (l : List Nat) (h : l.length = 7 * w) :
    ((reshapeRows l w).map List.sum).sum = l.sum := by
  induction w generalizing l with
  | zero =>
    have : l = [] := List.length_eq_zero.1 (by omega)
    subst this
    rfl
  | succ w ih =>
    simp only [reshapeRows, List.range_succ_eq_map, List.map_cons,
      List.map_map, List.sum_cons]
    have h0 : ((l.drop (7 * 0)).take 7).sum = (l.take 7).sum := by norm_num
    have hshift :
        (List.map (List.sum ∘ (fun i => (l.drop (7 * i)).take 7) ∘ Nat.succ)
            (List.range w)).sum =
        ((reshapeRows (l.drop 7) w).map List.sum).sum := by
      simp only [reshapeRows, List.map_map]
      congr 1
      apply List.map_congr_left
      intro i _
      show ((l.drop (7 * Nat.succ i)).take 7).sum =
        (((l.drop 7).drop (7 * i)).take 7).sum
      rw [List.drop_drop]
      have h7 : 7 * Nat.succ i = 7 + 7 * i := by omega
      rw [h7]
    rw [h0, hshift, ih (l.drop 7) (by rw [List.length_drop]; omega)]
    exact List.sum_take_add_sum_drop l 7

theorem gridSum_transpose (M : List (List Nat))
    (h : ∀ row ∈ M, row.length = 7) :
    gridSum (transposeT M) = (M.map List.sum).sum := by
  unfold gridSum transposeT
  rw [List.map_map]
  have : (List.sum ∘ fun r => M.map fun row => row.getD r 0) =
      fun r => (M.map fun row => row.getD r 0).sum := rfl
  rw [this, swap_sum]
  apply congrArg
  apply List.map_congr_left
  intro row hrow
  rw [sum_take_of_le 7 row (le_of_eq (h row hrow).symm)]
  rw [← h row hrow, List.take_length]

theorem paddedSeq_length (m : ActivityMap) (today : Int) :
    (paddedSeq m today).length = 7 * numWeeks m today := by
  have hd : (dailyCounts m today).length = numDays m today := by
    rw [dailyCounts, List.length_map, List.length_range]
  rw [paddedSeq, List.length_append, List.length_append, List.length_replicate,
    List.length_replicate, hd, numWeeks]
  omega

theorem sum_single_hit (n : Nat) (s k : Int) (v : Nat) (h1 : s ≤ k)
    (h2 : k < s + (n : Int)) :
    ((List.range n).map fun i : Nat => if s + (i : Int) = k then v else 0).sum
      = v := by
  induction n with
  | zero =>
    exfalso
    omega
  | succ n ih =>
    rw [List.range_succ, List.map_append, List.sum_append]
    simp only [List.map_cons, List.map_nil, List.sum_cons, List.sum_nil]
    by_cases hk : k = s + (n : Int)
    · have hfront :
          ((List.range n).map fun i : Nat => if s + (i : Int) = k then v else 0).sum
            = 0 := by
        apply List.sum_eq_zero
        intro x hx
        simp only [List.mem_map, List.mem_range] at hx
        obtain ⟨i, hi, rfl⟩ := hx
        have hne : ¬(s + (i : Int) = k) := by omega
        rw [if_neg hne]
      rw [hfront, if_pos hk.symm]
      omega
    · have hlt : k < s + (n : Int) := by omega
      rw [ih hlt, if_neg (fun he => hk he.symm)]
      omega

theorem sum_range_getCount (m : ActivityMap) (s : Int) (n : Nat)
    (hnd : (keys m).Nodup)
    (hb : ∀ k ∈ keys m, s ≤ k ∧ k < s + (n : Int)) :
    ((List.range n).map fun i : Nat => getCount m (s + (i : Int))).sum
      = valuesSum m := by
  induction m with
  | nil =>
    simp only [getCount, valuesSum, List.map_nil, List.sum_nil]
    exact List.sum_eq_zero (by
      intro x hx
      simp only [List.mem_map] at hx
      obtain ⟨i, _, rfl⟩ := hx
      rfl)
  | cons p rest ih =>
    obtain ⟨k, v⟩ := p
    have hk_notmem : k ∉ keys rest := by
      simp only [keys, List.map_cons, List.nodup_cons] at hnd
      exact hnd.1
    have hnd2 : (keys rest).Nodup := by
      simp only [keys, List.map_cons, List.nodup_cons] at hnd
      exact hnd.2
    have hbk := hb k (by simp [keys])
    have hbrest : ∀ k2 ∈ keys rest, s ≤ k2 ∧ k2 < s + (n : Int) := by
      intro k2 hk2
      refine hb k2 ?_
      simp only [keys, List.map_cons]
      exact List.mem_cons_of_mem _ hk2
    have hpt : ∀ i : Nat, getCount ((k, v) :: rest) (s + (i : Int)) =
        (if s + (i : Int) = k then v else 0) + getCount rest (s + (i : Int)) := by
      intro i
      simp only [getCount]
      by_cases hd : k = s + (i : Int)
      · rw [if_pos hd, if_pos hd.symm, ← hd,
          getCount_eq_zero_of_not_mem rest k hk_notmem]
        omega
      · rw [if_neg hd, if_neg (fun he => hd he.symm), Nat.zero_add]
    calc ((List.range n).map fun i : Nat => getCount ((k, v) :: rest) (s + (i : Int))).sum
        = ((List.range n).map fun i : Nat =>
            (if s + (i : Int) = k then v else 0)
              + getCount rest (s + (i : Int))).sum := by
          congr 1
          exact List.map_congr_left (fun i _ => hpt i)
      _ = ((List.range n).map fun i : Nat => if s + (i : Int) = k then v else 0).sum
            + ((List.range n).map fun i : Nat => getCount rest (s + (i : Int))).sum :=
          sum_map_add _ _ _
      _ = v + valuesSum rest := by
          rw [sum_single_hit n s k v hbk.1 hbk.2, ih hnd2 hbrest]
      _ = valuesSum ((k, v) :: rest) := by
          simp [valuesSum]

theorem generate_eq_ok (m : ActivityMap) (today : Int) (g : List (List Nat))
    (s e : Int) (h : generate_contribution_data m today = GridResult.ok g s e) :
    m ≠ [] ∧ 0 ≤ numDaysI m today ∧
      g = transposeT (reshapeRows (paddedSeq m today) (numWeeks m today)) ∧
      s = minKey m ∧ e = today := by
  unfold generate_contribution_data at h
  by_cases h1 : m = []
  · rw [if_pos h1] at h
    exact absurd h (by simp)
  · rw [if_neg h1] at h
    by_cases h2 : numDaysI m today < 0
    · rw [if_pos h2] at h
      exact absurd h (by simp)
    · rw [if_neg h2] at h
      rw [GridResult.ok.injEq] at h
      obtain ⟨hg, hs, he⟩ := h
      exact ⟨h1, by omega, hg.symm, hs.symm, he.symm⟩

theorem cellCount_transposeT (M : List (List Nat)) :
    cellCount (transposeT M) = 7 * M.length := by
  unfold cellCount transposeT
  rw [List.map_map]
  have hfun : (List.length ∘ fun r => M.map fun row => row.getD r 0) =
      fun _ : Nat => M.length := by
    funext r
    simp [List.length_map]
  rw [hfun, List.map_const', List.sum_replicate, List.length_range, smul_eq_mul]

theorem reshapeRows_length (l : List Nat) (w : Nat) :
    (reshapeRows l w).length = w := by
  unfold reshapeRows
  rw [List.length_map, List.length_range]

/-- C1 (amended).  Whenever generate_contribution_data returns a grid, the
total cell count is 7 * ((leadingPad + totalDays) / 7 + 1): the smallest
multiple of 7 that is STRICTLY GREATER than leadingPad + totalDays, so the
trailing padding is between 1 and 7 cells; when leadingPad + totalDays is
an exact multiple of 7 the code adds a whole extra blank week. -/
theorem grid_cell_count_amended (m : ActivityMap) (today : Int)
    (g : List (List Nat)) (s e : Int)
    (h : generate_contribution_data m today = GridResult.ok g s e) :
    cellCount g = 7 * ((leadingPad m + numDays m today) / 7 + 1) ∧
    leadingPad m + numDays m today < cellCount g ∧
    cellCount g ≤ leadingPad m + numDays m today + 7 := by
  obtain ⟨-, -, hg, -, -⟩ := generate_eq_ok m today g s e h
  subst hg
  rw [cellCount_transposeT, reshapeRows_length]
  unfold numWeeks
  refine ⟨by omega, by omega, by omega⟩

/-- C1 (counterexample).  A single activity day on Monday 2024-01-01 (day
19723) with today = Sunday 2024-01-07 (day 19729) gives leadingPad +
totalDays = 0 + 7, an exact multiple of 7, yet the produced grid has 2
columns and 14 cells: the trailing padding is a full week, so the claimed
minimality bound cellCount - (leadingPad + totalDays) < 7 fails. -/
theorem grid_cell_count_counterexample :
    generate_contribution_data [(19723, 1)] 19729 =
      GridResult.ok [[1, 0], [0, 0], [0, 0], [0, 0], [0, 0], [0, 0], [0, 0]]
        19723 19729 ∧
    leadingPad [(19723, 1)] + numDays [(19723, 1)] 19729 = 7 ∧
    cellCount [[1, 0], [0, 0], [0, 0], [0, 0], [0, 0], [0, 0], [0, 0]] = 14 ∧
    ¬(cellCount [[1, 0], [0, 0], [0, 0], [0, 0], [0, 0], [0, 0], [0, 0]]
        - (leadingPad [(19723, 1)] + numDays [(19723, 1)] 19729) < 7) := by
  refine ⟨by decide, by decide, by decide, by decide⟩

theorem grid_cell_count_witness :
    cellCount [[1], [0], [0], [0], [0], [0], [0]] =
      7 * ((leadingPad [(19723, 1)] + numDays [(19723, 1)] 19723) / 7 + 1) ∧
    leadingPad [(19723, 1)] + numDays [(19723, 1)] 19723 <
      cellCount [[1], [0], [0], [0], [0], [0], [0]] ∧
    cellCount [[1], [0], [0], [0], [0], [0], [0]] ≤
      leadingPad [(19723, 1)] + numDays [(19723, 1)] 19723 + 7 :=
  grid_cell_count_amended [(19723, 1)] 19723
    [[1], [0], [0], [0], [0], [0], [0]] 19723 19723 (by decide)

/-- C4 (amended).  Provided every key of the activity map is at most today,
the sum of all cells of the produced grid equals the sum of all counts of
the map: the zero padding neither loses nor duplicates counts.  The key
bound is needed: a count on a date after today lies outside the grid range
and is silently dropped (see the counterexample). -/
theorem grid_sum_amended (m : ActivityMap) (today : Int)
    (g : List (List Nat)) (s e : Int)
    (hnd : (keys m).Nodup) (hb : ∀ k ∈ keys m, k ≤ today)
    (h : generate_contribution_data m today = GridResult.ok g s e) :
    gridSum g = valuesSum m := by
  obtain ⟨-, hnn, hg, -, -⟩ := generate_eq_ok m today g s e h
  subst hg
  rw [gridSum_transpose _ (reshapeRows_row_length _ _ (paddedSeq_length m today)),
    sum_reshape _ _ (paddedSeq_length m today)]
  unfold paddedSeq
  rw [List.sum_append, List.sum_append, List.sum_replicate, List.sum_replicate]
  simp only [smul_zero, zero_add, add_zero]
  unfold dailyCounts
  apply sum_range_getCount m (minKey m) (numDays m today) hnd
  intro k hk
  refine ⟨minKey_le m k hk, ?_⟩
  have hcast : (numDays m today : Int) = numDaysI m today :=
    Int.toNat_of_nonneg hnn
  have hk2 := hb k hk
  unfold numDaysI at hcast
  omega

/-- C4 (counterexample).  An activity map with its single count on day 1
and today = day 0 produces a grid (num_days is 0, so numpy does not raise)
whose cells are all zero padding: the grid sum is 0 while the map sum is 5,
so the round-trip property fails when a key is later than today. -/
theorem grid_sum_counterexample :
    generate_contribution_data [(1, 5)] 0 =
      GridResult.ok [[0], [0], [0], [0], [0], [0], [0]] 1 0 ∧
    gridSum [[0], [0], [0], [0], [0], [0], [0]] ≠ valuesSum [(1, 5)] := by
  refine ⟨by decide, by decide⟩

theorem grid_sum_witness :
    gridSum [[1], [0], [0], [0], [0], [0], [0]] = valuesSum [(19723, 1)] :=
  grid_sum_amended [(19723, 1)] 19723 [[1], [0], [0], [0], [0], [0], [0]]
    19723 19723 (by decide) (by decide) (by decide)

/-- C5.  Whenever generate_contribution_data returns a grid, the grid has
exactly 7 rows, every row has numWeeks columns, and it is filled
column-major from the padded flat daily sequence: the cell at row r,
column c is element 7 * c + r of the padded sequence (reshape into rows of
7 consecutive elements, then transpose). -/
theorem grid_shape_column_major (m : ActivityMap) (today : Int)
    (g : List (List Nat)) (s e : Int)
    (h : generate_contribution_data m today = GridResult.ok g s e) :
    g.length = 7 ∧ (∀ row ∈ g, row.length = numWeeks m today) ∧
    ∀ r c : Nat, r < 7 → c < numWeeks m today →
      cell g r c = (paddedSeq m today).getD (7 * c + r) 0 := by
  obtain ⟨-, -, hg, -, -⟩ := generate_eq_ok m today g s e h
  subst hg
  refine ⟨?_, ?_, ?_⟩
  · unfold transposeT
    rw [List.length_map, List.length_range]
  · intro row hrow
    unfold transposeT at hrow
    simp only [List.mem_map, List.mem_range] at hrow
    obtain ⟨r, hr, rfl⟩ := hrow
    rw [List.length_map, reshapeRows_length]
  · intro r c hr hc
    unfold cell transposeT
    rw [getD_range_map _ 7 r ([] : List Nat) hr]
    simp only [reshapeRows, List.map_map]
    rw [getD_range_map _ (numWeeks m today) c 0 hc]
    show (((paddedSeq m today).drop (7 * c)).take 7).getD r 0 =
      (paddedSeq m today).getD (7 * c + r) 0
    rw [List.getD_eq_getElem?_getD, List.getD_eq_getElem?_getD,
      List.getElem?_take_of_lt hr, List.getElem?_drop]

theorem grid_shape_witness :
    [[1], [0], [0], [0], [0], [0], [0]].length = 7 ∧
    cell [[1], [0], [0], [0], [0], [0], [0]] 0 0 =
      (paddedSeq [(19723, 1)] 19723).getD (7 * 0 + 0) 0 :=
  ⟨(grid_shape_column_major [(19723, 1)] 19723
      [[1], [0], [0], [0], [0], [0], [0]] 19723 19723 (by decide)).1,
   (grid_shape_column_major [(19723, 1)] 19723
      [[1], [0], [0], [0], [0], [0], [0]] 19723 19723 (by decide)).2.2 0 0
      (by decide) (by decide)⟩

/-- C2 (amended).  For every clock day, generate_contribution_data applied
to an empty activity map returns the bare empty array np.array([]) as a
normal result value; no EmptyInputError (or any other exception) is raised
by the function itself.  In the model GridResult.error is the only raising
outcome, and the empty map never produces it. -/
theorem empty_map_returns_empty_array (today : Int) :
    generate_contribution_data [] today = GridResult.empty := rfl

/-- C2 (counterexample).  On the empty map with today = day 0 the function
returns the GridResult.empty value, the model of the early
return np.array([]) on line 79: it produces a result value and does not
raise (GridResult.error, the only modelled exception outcome of the
function, is not returned), so no EmptyInputError is surfaced. -/
theorem empty_map_counterexample :
    generate_contribution_data [] 0 = GridResult.empty ∧
    GridResult.empty ≠ GridResult.error := by
  refine ⟨by decide, by decide⟩

/-- C10 (amended).  generate_contribution_data has an inconsistent return
shape: for every non-empty activity map whose earliest key is at most
today + 1 it returns the 3-tuple result, for the empty map it returns a
single bare empty array (while a non-empty map whose earliest key exceeds
today + 1 makes numpy raise instead, see the counterexample); consequently
the orchestrator analyze_wallet_activity, which unconditionally unpacks
three values, fails on an empty record list with the generic
tuple-unpacking ValueError rather than any grid-specific error. -/
theorem orchestrator_unpack_failure :
    (∀ (m : ActivityMap) (today : Int), m ≠ [] → minKey m ≤ today + 1 →
       (generate_contribution_data m today).isOk = true) ∧
    (∀ today : Int, generate_contribution_data [] today = GridResult.empty) ∧
    (∀ today : Int, analyze_wallet_activity [] today =
       Except.error PyError.unpackError) := by
  refine ⟨?_, ?_, ?_⟩
  · intro m today h1 h2
    unfold generate_contribution_data
    rw [if_neg h1, if_neg (by unfold numDaysI; omega)]
    rfl
  · intro today
    rfl
  · intro today
    rfl

/-- C10 (counterexample).  The map with one count on day 2 and today =
day 0 reaches np.zeros with the negative length -1, so the call raises a
numpy ValueError (GridResult.error) instead of returning a 3-tuple: the
claim that every non-empty map yields a 3-tuple fails. -/
theorem orchestrator_nonempty_counterexample :
    generate_contribution_data [(2, 1)] 0 = GridResult.error ∧
    GridResult.error.isOk = false := by
  refine ⟨by decide, by decide⟩

theorem orchestrator_unpack_witness :
    (generate_contribution_data [(19723, 1)] 19723).isOk = true ∧
    analyze_wallet_activity [] 0 = Except.error PyError.unpackError :=
  ⟨orchestrator_unpack_failure.1 [(19723, 1)] 19723 (by decide) (by decide),
   orchestrator_unpack_failure.2.2 0⟩
